import Mathlib

/-!
Verification of the cli-tools repository against its specification.

Part 1 models the Huffman file compressor.  The compressor's source file is
not part of the repository snapshot (only its test suite is), so every
definition in the `Huffman` namespace is modelled from the specification's
own algorithm descriptions (spec §3, §4.1-§4.6) and cross-checked against
the behaviour asserted by `src/tests/test_file_compressor.py`.

Part 2 (`PyJson` namespace) embeds the JSON string-escaping function and the
lexer/recursive-descent parser of `src/json_parser.py`.

Modelling conventions:
* symbols are an arbitrary type `α` with decidable equality (the code uses
  single Unicode code points; genericity covers multi-byte code points);
* logical bit-strings of '0'/'1' characters are `List Bool` (`false` = '0',
  `true` = '1'), the representation the spec explicitly allows in §9;
* bytes are `Nat` values below 256;
* Python strings in the JSON part are `List Nat` of Unicode code points,
  which also covers lone surrogates that Lean's `Char` cannot carry;
* loops are expressed by structural recursion, using an explicit bound
  (fuel) equal to an input length where the loop's measure is not a
  structural argument.
-/

namespace Huffman

/-- Modelled from the spec: §3 HuffmanNode.  A node is either a leaf owning
one symbol and its frequency, or an internal node owning two children, or
the root-with-a-single-leaf-child produced for a one-symbol table (§4.2
edge case; the tests access it as a node whose `left` is the leaf and whose
`right` is absent). -/
inductive HNode (α : Type) where
  | leaf (sym : α) (freq : Nat)
  | node (freq : Nat) (l r : HNode α)
  | node1 (freq : Nat) (l : HNode α)
deriving DecidableEq, Repr

variable {α : Type} [DecidableEq α]

/-- Modelled from the spec: the frequency stored at a node (leaf frequency,
or for internal nodes the sum recorded when the node was created). -/
def HNode.rootFreq : HNode α → Nat
  | .leaf _ f => f
  | .node f _ _ => f
  | .node1 f _ => f

/-- Modelled from the spec: §3 invariant 1 — a leaf holds exactly one
symbol; this is the discriminator the tests call `is_leaf`. -/
def HNode.isLeaf : HNode α → Bool
  | .leaf _ _ => true
  | _ => false

/-- Depth of a tree (length of the longest root-to-leaf path). -/
def HNode.depth : HNode α → Nat
  | .leaf _ _ => 0
  | .node _ l r => 1 + max l.depth r.depth
  | .node1 _ l => 1 + l.depth

/-- Multiset of symbols at the leaves of a tree. -/
def leafMS : HNode α → Multiset α
  | .leaf c _ => {c}
  | .node _ l r => leafMS l + leafMS r
  | .node1 _ l => leafMS l

/-- Sum of the frequencies stored at the leaves of a tree. -/
def leafFreqSum : HNode α → Nat
  | .leaf _ f => f
  | .node _ l r => leafFreqSum l + leafFreqSum r
  | .node1 _ l => leafFreqSum l

/-- Spec §3 invariant 2: every internal node's frequency equals the sum of
the frequencies of the leaves beneath it. -/
def nodeSums : HNode α → Prop
  | .leaf _ _ => True
  | .node f l r => f = leafFreqSum l + leafFreqSum r ∧ nodeSums l ∧ nodeSums r
  | .node1 f l => f = leafFreqSum l ∧ nodeSums l

/-- Decidability of `nodeSums`, by structural recursion over the tree. -/
def nodeSumsDec : (t : HNode α) → Decidable (nodeSums t)
  | .leaf _ _ => isTrue trivial
  | .node f l r =>
    haveI := nodeSumsDec l
    haveI := nodeSumsDec r
    inferInstanceAs (Decidable (f = leafFreqSum l + leafFreqSum r ∧ nodeSums l ∧ nodeSums r))
  | .node1 f l =>
    haveI := nodeSumsDec l
    inferInstanceAs (Decidable (f = leafFreqSum l ∧ nodeSums l))

instance : DecidablePred (nodeSums (α := α)) := nodeSumsDec

/-- Modelled from the spec: §4.1 FrequencyAnalyzer, one step.  Counting a
symbol increments its entry if present, otherwise appends a fresh entry, so
the table's order is the deterministic first-occurrence order. -/
def bumpCount (table : List (α × Nat)) (c : α) : List (α × Nat) :=
  if table.any (fun e => decide (e.1 = c)) then
    table.map (fun e => if e.1 = c then (e.1, e.2 + 1) else e)
  else
    table ++ [(c, 1)]

/-- Modelled from the spec: §4.1 FrequencyAnalyzer.  Counts occurrences of
each symbol; the empty input yields the empty table. -/
def build_frequency_table (text : List α) : List (α × Nat) :=
  text.foldl bumpCount []

/-- Modelled from the spec: removal from the min-priority queue (§4.2).
Returns the lowest-frequency node, ties broken by original insertion order
(the earliest position in the list), together with the remaining queue. -/
def popMin : List (HNode α) → Option (HNode α × List (HNode α))
  | [] => none
  | t :: ts =>
    match popMin ts with
    | none => some (t, [])
    | some (m, rest) =>
      if t.rootFreq ≤ m.rootFreq then some (t, ts) else some (m, t :: rest)

/-- Modelled from the spec: §4.2 merge loop.  Repeatedly remove the two
lowest-frequency nodes, combine them into an internal node (frequency =
sum, left = first removed, right = second removed), reinsert the new node
(at the end, so later-created nodes lose frequency ties), until one node
remains.  The `Nat` argument bounds the number of merges; callers pass the
queue length, which always suffices since each merge shrinks the queue. -/
def mergeLoopN : Nat → List (HNode α) → Option (HNode α)
  | _, [] => none
  | _, [t] => some t
  | 0, _ :: _ :: _ => none
  | n + 1, q@(_ :: _ :: _) =>
    match popMin q with
    | none => none
    | some (a, q1) =>
      match popMin q1 with
      | none => none
      | some (b, q2) =>
        mergeLoopN n (q2 ++ [HNode.node (a.rootFreq + b.rootFreq) a b])

/-- Modelled from the spec: §4.2 HuffmanTreeBuilder.  An empty table yields
"no tree" (`none`); a one-symbol table yields a root with a single leaf
child so the symbol still receives a non-empty code; otherwise one leaf per
symbol is queued (in table order) and merged down to a single root. -/
def build_huffman_tree (table : List (α × Nat)) : Option (HNode α) :=
  match table.map (fun e => HNode.leaf e.1 e.2) with
  | [] => none
  | [l] => some (HNode.node1 l.rootFreq l)
  | q => mergeLoopN q.length q

/-- Modelled from the spec: §4.3 depth-first walk that records, at each
leaf, the accumulated bit-string ('0' on a left descent, '1' on a right
descent). -/
def codesAux : HNode α → List Bool → List (α × List Bool)
  | .leaf c _, pfx => [(c, pfx)]
  | .node _ l r, pfx => codesAux l (pfx ++ [false]) ++ codesAux r (pfx ++ [true])
  | .node1 _ l, pfx => codesAux l (pfx ++ [false])

/-- Modelled from the spec: §4.3 CodeTableGenerator; "no tree" produces an
empty table. -/
def build_code_table : Option (HNode α) → List (α × List Bool)
  | none => []
  | some t => codesAux t []

/-- Error kinds of the codec relevant to encoding/decoding (spec §7). -/
inductive CodecError where
  | corruptBitstream
  | missingCode
deriving DecidableEq, Repr

/-- First code-table entry for a symbol, if any. -/
def findCode (c : α) : List (α × List Bool) → Option (List Bool)
  | [] => none
  | (a, p) :: rest => if a = c then some p else findCode c rest

/-- Modelled from the spec: §4.4 Encoder — concatenation of each input
symbol's code, in input order; a symbol without a code is an internal
consistency error. -/
def encode_text (text : List α) (codes : List (α × List Bool)) :
    Except CodecError (List Bool) :=
  match text with
  | [] => .ok []
  | c :: rest =>
    match findCode c codes with
    | none => .error .missingCode
    | some p => (encode_text rest codes).map (fun bs => p ++ bs)

/-- Modelled from the spec: §4.5 Decoder, one symbol.  Starting at the
given node, each bit selects the left ('0') or right ('1') child; reaching
a leaf emits its symbol and returns the unread bits.  Running out of bits
mid-path, taking '1' at a single-child node, or starting at a leaf are
decode failures. -/
def decodeOne : HNode α → List Bool → Except CodecError (α × List Bool)
  | .leaf _ _, _ => .error .corruptBitstream
  | .node _ _ _, [] => .error .corruptBitstream
  | .node1 _ _, [] => .error .corruptBitstream
  | .node _ l _, false :: bs =>
    match l with
    | .leaf s _ => .ok (s, bs)
    | _ => decodeOne l bs
  | .node _ _ r, true :: bs =>
    match r with
    | .leaf s _ => .ok (s, bs)
    | _ => decodeOne r bs
  | .node1 _ l, false :: bs =>
    match l with
    | .leaf s _ => .ok (s, bs)
    | _ => decodeOne l bs
  | .node1 _ _, true :: _ => .error .corruptBitstream

/-- Modelled from the spec: §4.5 Decoder loop — decode symbols until the
bit-string is exhausted, resetting to the root after each leaf.  The fuel
argument bounds the number of decoded symbols; each symbol consumes at
least one bit, so the bit-string length always suffices. -/
def decodeAllF (t : HNode α) : Nat → List Bool → Except CodecError (List α)
  | _, [] => .ok []
  | 0, _ :: _ => .error .corruptBitstream
  | fuel + 1, b :: bs =>
    match decodeOne t (b :: bs) with
    | .ok (s, rem) => (decodeAllF t fuel rem).map (fun xs => s :: xs)
    | .error e => .error e

/-- Decoder loop at its canonical fuel. -/
def decodeAll (t : HNode α) (bits : List Bool) : Except CodecError (List α) :=
  decodeAllF t bits.length bits

/-- Modelled from the spec: §4.5 Decoder.  "No tree" with an empty
bit-string yields the empty sequence; bits against "no tree" are a decode
failure, as are trailing bits that do not complete a root-to-leaf path. -/
def decode_text (bits : List Bool) (tree : Option (HNode α)) :
    Except CodecError (List α) :=
  match tree with
  | none => if bits.isEmpty then .ok [] else .error .corruptBitstream
  | some t => decodeAll t bits

/-- Value of a bit-string read most-significant-bit first. -/
def bitsToByte (l : List Bool) : Nat :=
  l.foldl (fun a b => 2 * a + cond b 1 0) 0

/-- Modelled from the spec: §4.6 grouping loop — take 8 bits at a time,
most-significant-bit first.  The fuel argument bounds the number of bytes
produced; callers pass the bit-string length, which always suffices. -/
def packLoopN : Nat → List Bool → List Nat
  | _, [] => []
  | 0, _ :: _ => []
  | n + 1, l => bitsToByte (l.take 8) :: packLoopN n (l.drop 8)

/-- Modelled from the spec: §4.6 BitPacker.  Pads the final byte on its
low-order end with zero bits and reports how many were added: 0 when the
length is a multiple of 8, otherwise 8 − (length mod 8). -/
def pack_bits (bits : List Bool) : List Nat × Nat :=
  let padding := if bits.length % 8 = 0 then 0 else 8 - bits.length % 8
  let padded := bits ++ List.replicate padding false
  (packLoopN padded.length padded, padding)

/-- The 8 bits of a byte, most-significant-bit first. -/
def byteToBits (n : Nat) : List Bool :=
  [n / 128 % 2 == 1, n / 64 % 2 == 1, n / 32 % 2 == 1, n / 16 % 2 == 1,
   n / 8 % 2 == 1, n / 4 % 2 == 1, n / 2 % 2 == 1, n % 2 == 1]

/-- Modelled from the spec: §4.6 BitUnpacker.  Expand each byte into its 8
bits (MSB first), concatenate, and drop exactly `padding` bits from the
end. -/
def unpack_bits (bytes : List Nat) (padding : Nat) : List Bool :=
  let all := (bytes.map byteToBits).flatten
  all.take (all.length - padding)

/-- Root-to-leaf paths: `PathTo t p c` holds when following the bits of `p`
from `t` (left on `false`, right on `true`) ends exactly at a leaf holding
`c`. -/
inductive PathTo : HNode α → List Bool → α → Prop where
  | leaf (c : α) (f : Nat) : PathTo (.leaf c f) [] c
  | left {l : HNode α} (f : Nat) (r : HNode α) {p : List Bool} {c : α} :
      PathTo l p c → PathTo (.node f l r) (false :: p) c
  | right (f : Nat) (l : HNode α) {r : HNode α} {p : List Bool} {c : α} :
      PathTo r p c → PathTo (.node f l r) (true :: p) c
  | single {l : HNode α} (f : Nat) {p : List Bool} {c : α} :
      PathTo l p c → PathTo (.node1 f l) (false :: p) c

/-- Declarative description of removal from the priority queue (§4.2 with
the §4.9 tie-break policy): `IsPop q m rest` holds when `m` occurs in `q`,
no element of `q` has smaller frequency, every element before `m` has
strictly greater frequency (so `m` is the earliest minimum), and `rest` is
`q` with that occurrence removed. -/
def IsPop (q : List (HNode α)) (m : HNode α) (rest : List (HNode α)) : Prop :=
  ∃ l1 l2, q = l1 ++ m :: l2 ∧ rest = l1 ++ l2 ∧
    (∀ x ∈ q, m.rootFreq ≤ x.rootFreq) ∧
    (∀ x ∈ l1, m.rootFreq < x.rootFreq)

/-- Declarative single merge step of the spec's algorithm (§4.2): remove
the two lowest nodes under the tie-break policy, combine them, append the
new internal node. -/
inductive MergeStep : List (HNode α) → List (HNode α) → Prop where
  | mk {q q1 q2 : List (HNode α)} {a b : HNode α} :
      IsPop q a q1 → IsPop q1 b q2 →
      MergeStep q (q2 ++ [HNode.node (a.rootFreq + b.rootFreq) a b])

/-- A complete run of the spec's merge loop from queue `q` to root `t`. -/
inductive BuildsTo : List (HNode α) → HNode α → Prop where
  | done (t : HNode α) : BuildsTo [t] t
  | step {q q' : List (HNode α)} {t : HNode α} :
      MergeStep q q' → BuildsTo q' t → BuildsTo q t

/-- Declarative counterpart of `build_huffman_tree`, written from the
spec's words (§4.2): the tie-break policy is part of the relation, but no
particular implementation of the priority queue is fixed. -/
def TreeFor (table : List (α × Nat)) (t : HNode α) : Prop :=
  match table.map (fun e => HNode.leaf e.1 e.2) with
  | [] => False
  | [l] => t = HNode.node1 l.rootFreq l
  | q => BuildsTo q t

end Huffman

namespace PyJson

/-!
Embedding of `src/json_parser.py`.  Python strings are `List Nat` of
Unicode code points.  Source line/column tracking is omitted: it feeds only
the text of error messages, which are represented here by the `JErr`
constructors.  Two places where the source defers to Python built-ins are
narrowed to the cases the grammar can reach: `str.isdigit`/`str.isalpha`
are modelled on ASCII, and `int(hex_digits, 16)` is modelled as a 4-hex-
digit reader (Python's `int` additionally tolerates sign/whitespace forms,
which only ever makes the lexer accept more inputs; no claim depends on
those inputs).
-/

/-- Errors raised by the lexer/parser (the source raises `SyntaxError` with
a message; the constructors name the distinct messages).  `noFuel` is the
out-of-fuel sentinel of the fueled recursions, unreachable at the bounds
used by `tokenize` and `parse_json`. -/
inductive JErr where
  | unterminatedString
  | invalidEscape
  | incompleteUnicode
  | invalidUnicode
  | unescapedControl
  | unexpectedChar
  | invalidNumber
  | unknownIdent
  | expectedToken
  | unexpectedToken
  | objectKeyNotString
  | noFuel
deriving DecidableEq, Repr

/-- Tokens, from `TokenType` in the source (positions omitted).  A number
token keeps its literal text: the source converts it with Python
`int`/`float`, a conversion no claim under study depends on. -/
inductive JToken where
  | lbrace | rbrace | lbracket | rbracket | colon | comma
  | str (s : List Nat)
  | num (literal : List Nat)
  | tru | fls | nul
  | eof
deriving DecidableEq, Repr

/-- Parsed JSON values, as returned by `JSONParser.parse` (Python dicts
become key/value lists in insertion order). -/
inductive JValue where
  | obj (entries : List (List Nat × JValue))
  | arr (elems : List JValue)
  | str (s : List Nat)
  | num (literal : List Nat)
  | bool (b : Bool)
  | nul

/-- `JSONLexer.ESCAPE_CHARS`: the character produced by each single-letter
escape (`\"`, `\\`, `\/`, `\b`, `\f`, `\n`, `\r`, `\t`). -/
def escMap (e : Nat) : Option Nat :=
  if e = 34 then some 34
  else if e = 92 then some 92
  else if e = 47 then some 47
  else if e = 98 then some 8
  else if e = 102 then some 12
  else if e = 110 then some 10
  else if e = 114 then some 13
  else if e = 116 then some 9
  else none

/-- Value of an ASCII hex digit (`0-9`, `a-f`, `A-F`), as accepted by
`int(_, 16)` on a single digit. -/
def hexVal (c : Nat) : Option Nat :=
  if 48 ≤ c ∧ c ≤ 57 then some (c - 48)
  else if 97 ≤ c ∧ c ≤ 102 then some (c - 87)
  else if 65 ≤ c ∧ c ≤ 70 then some (c - 55)
  else none

/-- `JSONLexer.read_string` loop, from just after the opening quote: read
characters until the closing quote, decoding single-letter escapes through
`ESCAPE_CHARS` and `\uXXXX` escapes through `chr(int(XXXX, 16))`; an
unescaped control character, an unknown escape, a short or non-hex unicode
escape, and a missing closing quote are errors.  Returns the decoded
string and the input after the closing quote.  The fuel bounds the number
of decoded characters; each decoded character consumes at least one input
character, so `length + 1` always suffices. -/
def readStrF : Nat → List Nat → Except JErr (List Nat × List Nat)
  | 0, _ => .error .noFuel
  | fuel + 1, input =>
    match input with
    | [] => .error .unterminatedString
    | c :: rest =>
      if c = 34 then .ok ([], rest)
      else if c = 92 then
        match rest with
        | [] => .error .invalidEscape
        | e :: rest2 =>
          match escMap e with
          | some d => (readStrF fuel rest2).map (fun sr => (d :: sr.1, sr.2))
          | none =>
            if e = 117 then
              match rest2 with
              | h1 :: h2 :: h3 :: h4 :: rest3 =>
                match hexVal h1, hexVal h2, hexVal h3, hexVal h4 with
                | some v1, some v2, some v3, some v4 =>
                  (readStrF fuel rest3).map
                    (fun sr => ((v1 * 4096 + v2 * 256 + v3 * 16 + v4) :: sr.1, sr.2))
                | _, _, _, _ => .error .invalidUnicode
              | _ => .error .incompleteUnicode
            else .error .invalidEscape
      else if c < 32 then .error .unescapedControl
      else (readStrF fuel rest).map (fun sr => (c :: sr.1, sr.2))

/-- `JSONLexer.read_string` at its canonical fuel. -/
def readStr (input : List Nat) : Except JErr (List Nat × List Nat) :=
  readStrF (input.length + 1) input

/-- ASCII decimal digit test (models `str.isdigit` on the grammar's
alphabet). -/
def isDigit (c : Nat) : Bool := 48 ≤ c && c ≤ 57

/-- ASCII letter test (models `str.isalpha` on the grammar's alphabet). -/
def isAlpha (c : Nat) : Bool := (65 ≤ c && c ≤ 90) || (97 ≤ c && c ≤ 122)

/-- Longest digit run at the front of the input. -/
def spanDigits : List Nat → List Nat × List Nat
  | [] => ([], [])
  | c :: cs =>
    if isDigit c then
      let p := spanDigits cs
      (c :: p.1, p.2)
    else ([], c :: cs)

/-- Fractional part of `JSONLexer.read_number`: after the integer part, an
optional `.` followed by at least one digit. -/
def readFrac : List Nat → Except JErr (List Nat × List Nat)
  | 46 :: t =>
    match t with
    | c :: _ =>
      if isDigit c then
        let p := spanDigits t
        .ok (46 :: p.1, p.2)
      else .error .invalidNumber
    | [] => .error .invalidNumber
  | input => .ok ([], input)

/-- Exponent part of `JSONLexer.read_number`: an optional `e`/`E`, an
optional sign, then at least one digit. -/
def readExp : List Nat → Except JErr (List Nat × List Nat)
  | c :: t =>
    if c = 101 ∨ c = 69 then
      match t with
      | s :: t2 =>
        if s = 43 ∨ s = 45 then
          match t2 with
          | d :: _ =>
            if isDigit d then
              let p := spanDigits t2
              .ok (c :: s :: p.1, p.2)
            else .error .invalidNumber
          | [] => .error .invalidNumber
        else if isDigit s then
          let p := spanDigits t
          .ok (c :: p.1, p.2)
        else .error .invalidNumber
      | [] => .error .invalidNumber
    else .ok ([], c :: t)
  | [] => .ok ([], [])

/-- `JSONLexer.read_number`: optional minus, then either a single `0` or a
non-empty digit run, then optional fraction and exponent.  Returns the
literal text of the number and the rest of the input. -/
def readNum (input : List Nat) : Except JErr (List Nat × List Nat) :=
  let m := match input with
    | 45 :: t => (([45] : List Nat), t)
    | _ => ([], input)
  match m.2 with
  | 48 :: t =>
    match readFrac t with
    | .error e => .error e
    | .ok (fr, r2) =>
      match readExp r2 with
      | .error e => .error e
      | .ok (ex, r3) => .ok (m.1 ++ 48 :: (fr ++ ex), r3)
  | c :: _ =>
    if isDigit c then
      let p := spanDigits m.2
      match readFrac p.2 with
      | .error e => .error e
      | .ok (fr, r2) =>
        match readExp r2 with
        | .error e => .error e
        | .ok (ex, r3) => .ok (m.1 ++ p.1 ++ fr ++ ex, r3)
    else .error .invalidNumber
  | [] => .error .invalidNumber

/-- Longest alphabetic run at the front of the input. -/
def spanAlpha : List Nat → List Nat × List Nat
  | [] => ([], [])
  | c :: cs =>
    if isAlpha c then
      let p := spanAlpha cs
      (c :: p.1, p.2)
    else ([], c :: cs)

/-- `JSONLexer.read_identifier`: a run of letters that must spell `true`,
`false` or `null`. -/
def readIdent (input : List Nat) : Except JErr (JToken × List Nat) :=
  let p := spanAlpha input
  if p.1 = [116, 114, 117, 101] then .ok (.tru, p.2)
  else if p.1 = [102, 97, 108, 115, 101] then .ok (.fls, p.2)
  else if p.1 = [110, 117, 108, 108] then .ok (.nul, p.2)
  else .error .unknownIdent

/-- `JSONLexer.skip_whitespace`: drop space, tab, newline and carriage
return. -/
def dropWs : List Nat → List Nat
  | [] => []
  | c :: cs =>
    if c = 32 ∨ c = 9 ∨ c = 10 ∨ c = 13 then dropWs cs else c :: cs

/-- `JSONLexer.next_token`: skip whitespace, then dispatch on the first
character (structural token, string, number, keyword), or report an
unexpected character; the exhausted input yields the EOF token. -/
def nextToken (input : List Nat) : Except JErr (JToken × List Nat) :=
  match dropWs input with
  | [] => .ok (.eof, [])
  | c :: cs =>
    if c = 123 then .ok (.lbrace, cs)
    else if c = 125 then .ok (.rbrace, cs)
    else if c = 91 then .ok (.lbracket, cs)
    else if c = 93 then .ok (.rbracket, cs)
    else if c = 58 then .ok (.colon, cs)
    else if c = 44 then .ok (.comma, cs)
    else if c = 34 then (readStr cs).map (fun sr => (.str sr.1, sr.2))
    else if c = 45 ∨ isDigit c then
      (readNum (c :: cs)).map (fun nr => (.num nr.1, nr.2))
    else if isAlpha c then readIdent (c :: cs)
    else .error .unexpectedChar

/-- `JSONLexer.tokenize` loop: collect tokens until EOF (inclusive).  The
fuel bounds the number of tokens; each non-EOF token consumes at least one
character, so `length + 1` always suffices. -/
def tokenizeF : Nat → List Nat → Except JErr (List JToken)
  | 0, _ => .error .noFuel
  | fuel + 1, input =>
    match nextToken input with
    | .error e => .error e
    | .ok (.eof, _) => .ok [.eof]
    | .ok (t, rest) => (tokenizeF fuel rest).map (fun ts => t :: ts)

/-- `JSONLexer.tokenize` at its canonical fuel. -/
def tokenize (input : List Nat) : Except JErr (List JToken) :=
  tokenizeF (input.length + 1) input

/-- Assignment `obj[key] = value` on the insertion-ordered dict model:
update the existing entry in place, else append. -/
def dictInsert (l : List (List Nat × JValue)) (k : List Nat) (v : JValue) :
    List (List Nat × JValue) :=
  if l.any (fun e => decide (e.1 = k)) then
    l.map (fun e => if e.1 = k then (k, v) else e)
  else l ++ [(k, v)]

mutual

/-- `JSONParser.parse_value`: dispatch on the current token.  The fuel
bounds nesting and element counts; `parse_json` passes the token count,
which always suffices since every recursive call consumes a token first. -/
def parseVal : Nat → List JToken → Except JErr (JValue × List JToken)
  | 0, _ => .error .noFuel
  | f + 1, ts =>
    match ts with
    | .lbrace :: rest => parseObjStart f rest
    | .lbracket :: rest => parseArrStart f rest
    | .str s :: rest => .ok (.str s, rest)
    | .num l :: rest => .ok (.num l, rest)
    | .tru :: rest => .ok (.bool true, rest)
    | .fls :: rest => .ok (.bool false, rest)
    | .nul :: rest => .ok (.nul, rest)
    | _ => .error .unexpectedToken

/-- `JSONParser.parse_object` after the opening brace: empty object, or a
first pair followed by the comma loop. -/
def parseObjStart : Nat → List JToken → Except JErr (JValue × List JToken)
  | 0, _ => .error .noFuel
  | f + 1, ts =>
    match ts with
    | .rbrace :: rest => .ok (.obj [], rest)
    | _ =>
      match parsePair f ts with
      | .error e => .error e
      | .ok (k, v, rest) => parseObjLoop f (dictInsert [] k v) rest

/-- Comma loop of `JSONParser.parse_object`, then the closing brace. -/
def parseObjLoop :
    Nat → List (List Nat × JValue) → List JToken →
    Except JErr (JValue × List JToken)
  | 0, _, _ => .error .noFuel
  | f + 1, acc, ts =>
    match ts with
    | .comma :: rest =>
      match parsePair f rest with
      | .error e => .error e
      | .ok (k, v, rest2) => parseObjLoop f (dictInsert acc k v) rest2
    | .rbrace :: rest => .ok (.obj acc, rest)
    | _ => .error .expectedToken

/-- `JSONParser.parse_pair`: a string key, a colon, then a value. -/
def parsePair : Nat → List JToken → Except JErr (List Nat × JValue × List JToken)
  | 0, _ => .error .noFuel
  | f + 1, ts =>
    match ts with
    | .str k :: .colon :: rest =>
      match parseVal f rest with
      | .error e => .error e
      | .ok (v, rest2) => .ok (k, v, rest2)
    | .str _ :: _ => .error .expectedToken
    | _ => .error .objectKeyNotString

/-- `JSONParser.parse_array` after the opening bracket: empty array, or a
first element followed by the comma loop. -/
def parseArrStart : Nat → List JToken → Except JErr (JValue × List JToken)
  | 0, _ => .error .noFuel
  | f + 1, ts =>
    match ts with
    | .rbracket :: rest => .ok (.arr [], rest)
    | _ =>
      match parseVal f ts with
      | .error e => .error e
      | .ok (v, rest) => parseArrLoop f [v] rest

/-- Comma loop of `JSONParser.parse_array`, then the closing bracket. -/
def parseArrLoop :
    Nat → List JValue → List JToken → Except JErr (JValue × List JToken)
  | 0, _, _ => .error .noFuel
  | f + 1, acc, ts =>
    match ts with
    | .comma :: rest =>
      match parseVal f rest with
      | .error e => .error e
      | .ok (v, rest2) => parseArrLoop f (acc ++ [v]) rest2
    | .rbracket :: rest => .ok (.arr acc, rest)
    | _ => .error .expectedToken

end

/-- `JSONParser.parse`: parse one value, then require that only the EOF
token remains (the source treats an exhausted token list as EOF, since the
token stream always ends with the EOF token). -/
def parseTokens (ts : List JToken) : Except JErr JValue :=
  match parseVal ts.length ts with
  | .error e => .error e
  | .ok (v, rest) =>
    match rest with
    | [] => .ok v
    | .eof :: _ => .ok v
    | _ :: _ => .error .unexpectedToken

/-- Top-level `parse_json`: tokenize, then parse. -/
def parse_json (text : List Nat) : Except JErr JValue :=
  match tokenize text with
  | .error e => .error e
  | .ok ts => parseTokens ts

/-- `escape_string`, one character: the seven named escapes, `\uXXXX` (four
lowercase hex digits, as `ord < 0x20` keeps the value in four digits) for
other control characters, and every other character unchanged. -/
def hexDigitChar (d : Nat) : Nat :=
  if d < 10 then 48 + d else 87 + d

/-- Output of `escape_string` for the escaped characters, or `none` when
the character is copied or `\u`-escaped. -/
def escOut (c : Nat) : Option Nat :=
  if c = 34 then some 34
  else if c = 92 then some 92
  else if c = 8 then some 98
  else if c = 12 then some 102
  else if c = 10 then some 110
  else if c = 13 then some 114
  else if c = 9 then some 116
  else none

/-- Expansion of a single character under `escape_string`. -/
def escapeChar (c : Nat) : List Nat :=
  match escOut c with
  | some e => [92, e]
  | none =>
    if c < 32 then
      [92, 117, hexDigitChar (c / 4096 % 16), hexDigitChar (c / 256 % 16),
       hexDigitChar (c / 16 % 16), hexDigitChar (c % 16)]
    else [c]

/-- `escape_string`: escape special characters in a string for JSON
output. -/
def escape_string (s : List Nat) : List Nat :=
  (s.map escapeChar).flatten

end PyJson

/-!
Theorems.  Claim theorems are marked with their claim id; the remaining
lemmas are shared supporting material.
-/

namespace Huffman

variable {α : Type} [DecidableEq α]

theorem byteToBits_bitsToByte :
    ∀ a b c d e f g h : Bool,
      byteToBits (bitsToByte [a, b, c, d, e, f, g, h]) = [a, b, c, d, e, f, g, h] := by
  decide

theorem byteToBits_bitsToByte_len (l : List Bool) (h : l.length = 8) :
    byteToBits (bitsToByte l) = l := by
  rcases l with _ | ⟨b1, l⟩; · simp at h
  rcases l with _ | ⟨b2, l⟩; · simp at h
  rcases l with _ | ⟨b3, l⟩; · simp at h
  rcases l with _ | ⟨b4, l⟩; · simp at h
  rcases l with _ | ⟨b5, l⟩; · simp at h
  rcases l with _ | ⟨b6, l⟩; · simp at h
  rcases l with _ | ⟨b7, l⟩; · simp at h
  rcases l with _ | ⟨b8, l⟩; · simp at h
  rcases l with _ | ⟨b9, l⟩
  · exact byteToBits_bitsToByte b1 b2 b3 b4 b5 b6 b7 b8
  · simp at h

theorem bitsToByte_foldl_lt (l : List Bool) :
    ∀ a : Nat, l.foldl (fun a b => 2 * a + cond b 1 0) a < (a + 1) * 2 ^ l.length := by
  induction l with
  | nil => intro a; simp
  | cons b bs ih =>
    intro a
    have h1 := ih (2 * a + cond b 1 0)
    have h2 : (2 * a + cond b 1 0 + 1) * 2 ^ bs.length ≤ (a + 1) * 2 ^ (bs.length + 1) := by
      have hc : cond b 1 0 ≤ 1 := by cases b <;> simp
      have : 2 * a + cond b 1 0 + 1 ≤ 2 * (a + 1) := by omega
      calc (2 * a + cond b 1 0 + 1) * 2 ^ bs.length
          ≤ 2 * (a + 1) * 2 ^ bs.length := Nat.mul_le_mul_right _ this
        _ = (a + 1) * 2 ^ (bs.length + 1) := by ring
    simpa [List.foldl] using lt_of_lt_of_le h1 h2

theorem bitsToByte_lt (l : List Bool) : bitsToByte l < 2 ^ l.length := by
  simpa using bitsToByte_foldl_lt l 0

theorem packLoopN_flatten :
    ∀ (n : Nat) (bits : List Bool), bits.length ≤ n → bits.length % 8 = 0 →
      ((packLoopN n bits).map byteToBits).flatten = bits := by
  intro n
  induction n with
  | zero =>
    intro bits hle _
    have : bits = [] := List.length_eq_zero.mp (by omega)
    subst this; rfl
  | succ n ih =>
    intro bits hle hmod
    rcases bits with _ | ⟨b, bs⟩
    · rfl
    · simp only [List.length_cons] at hle hmod
      have htake : ((b :: bs).take 8).length = 8 := by
        simp only [List.length_take, List.length_cons]; omega
      have hdle : ((b :: bs).drop 8).length ≤ n := by
        simp only [List.length_drop, List.length_cons]; omega
      have hdmod : ((b :: bs).drop 8).length % 8 = 0 := by
        simp only [List.length_drop, List.length_cons]; omega
      calc ((packLoopN (n + 1) (b :: bs)).map byteToBits).flatten
          = byteToBits (bitsToByte ((b :: bs).take 8))
              ++ ((packLoopN n ((b :: bs).drop 8)).map byteToBits).flatten := by
            simp [packLoopN]
        _ = (b :: bs).take 8 ++ (b :: bs).drop 8 := by
            rw [byteToBits_bitsToByte_len _ htake, ih _ hdle hdmod]
        _ = b :: bs := List.take_append_drop 8 (b :: bs)

theorem packLoopN_mem_lt :
    ∀ (n : Nat) (bits : List Bool), ∀ x ∈ packLoopN n bits, x < 256 := by
  intro n
  induction n with
  | zero =>
    intro bits x hx
    match bits with
    | [] => simp [packLoopN] at hx
    | b :: bs => simp [packLoopN] at hx
  | succ n ih =>
    intro bits x hx
    match bits with
    | [] => simp [packLoopN] at hx
    | b :: bs =>
      simp only [packLoopN, List.mem_cons] at hx
      rcases hx with rfl | hx
      · have h1 := bitsToByte_lt ((b :: bs).take 8)
        have h2 : ((b :: bs).take 8).length ≤ 8 := by
          simp [List.length_take]
        have h3 : (2 : Nat) ^ ((b :: bs).take 8).length ≤ 2 ^ 8 :=
          Nat.pow_le_pow_right (by omega) h2
        omega
      · exact ih _ x hx

theorem padded_length_mod (bits : List Bool) :
    (bits ++ List.replicate (if bits.length % 8 = 0 then 0 else 8 - bits.length % 8)
      false).length % 8 = 0 := by
  simp only [List.length_append, List.length_replicate]
  have := Nat.mod_lt bits.length (y := 8) (by omega)
  by_cases h : bits.length % 8 = 0 <;> simp [h] <;> omega

/-- C2: for every bit-string `b`, `unpack_bits (pack_bits b) = b`; packing
the empty bit-string yields an empty byte sequence with padding count 0. -/
theorem pack_unpack_roundtrip :
    (∀ bits : List Bool, unpack_bits (pack_bits bits).1 (pack_bits bits).2 = bits) ∧
    pack_bits [] = ([], 0) := by
  refine ⟨fun bits => ?_, rfl⟩
  unfold pack_bits unpack_bits
  simp only
  set pad := if bits.length % 8 = 0 then 0 else 8 - bits.length % 8 with hpad
  set padded := bits ++ List.replicate pad false with hpadded
  have hmod : padded.length % 8 = 0 := padded_length_mod bits
  have hfl : ((packLoopN padded.length padded).map byteToBits).flatten = padded :=
    packLoopN_flatten padded.length padded le_rfl hmod
  rw [hfl]
  have hlen : padded.length = bits.length + pad := by
    simp [hpadded]
  rw [hlen, hpadded]
  have : bits.length + pad - pad = bits.length := by omega
  rw [this]
  simpa using List.take_left bits (List.replicate pad false)

/-- C3: `pack_bits` groups the bit-string into bytes MSB-first (expanding
each output byte back into its 8 bits recovers the input followed by the
padding zeros appended at the low-order end), every output value is a
byte, the padding count is 0 when the length is a multiple of 8 and
`8 - length % 8` otherwise; concretely `pack_bits "10101010" = (0xAA, 0)`
and `pack_bits "101"` is one byte (0xA0) with padding count 5. -/
theorem pack_bits_spec :
    (∀ bits : List Bool,
      (pack_bits bits).2 = (if bits.length % 8 = 0 then 0 else 8 - bits.length % 8) ∧
      ((pack_bits bits).1.map byteToBits).flatten
        = bits ++ List.replicate (pack_bits bits).2 false ∧
      ∀ n ∈ (pack_bits bits).1, n < 256) ∧
    pack_bits [true, false, true, false, true, false, true, false] = ([170], 0) ∧
    pack_bits [true, false, true] = ([160], 5) := by
  refine ⟨fun bits => ⟨rfl, ?_, ?_⟩, by decide, by decide⟩
  · exact packLoopN_flatten _ _ le_rfl (padded_length_mod bits)
  · intro n hn
    exact packLoopN_mem_lt _ _ n hn

end Huffman

namespace Huffman

variable {α : Type} [DecidableEq α]

/-- C5: an empty frequency table yields the "no tree" sentinel, and
decoding the empty bit-string against "no tree" yields the empty symbol
sequence. -/
theorem empty_table_no_tree (α : Type) [DecidableEq α] :
    build_huffman_tree ([] : List (α × Nat)) = none ∧
    decode_text [] (none : Option (HNode α)) = .ok [] :=
  ⟨rfl, rfl⟩

/-- C4: a frequency table with exactly one distinct symbol (any positive
count) yields a tree of depth at least 1 whose single leaf holds that
symbol, and the code table derived from it assigns that symbol the
non-empty code "0" (`[false]`). -/
theorem single_symbol_tree (s : α) (n : Nat) (hn : 0 < n) :
    ∃ t, build_huffman_tree [(s, n)] = some t ∧ 1 ≤ t.depth ∧
      leafMS t = {s} ∧ build_code_table (some t) = [(s, [false])] := by
  refine ⟨HNode.node1 n (HNode.leaf s n), rfl, ?_, rfl, rfl⟩
  simp [HNode.depth]

/-- Witness for C4 at the tests' concrete table `{'a': 5}`. -/
theorem single_symbol_tree_witness :
    0 < 5 ∧ ∃ t, build_huffman_tree [('a', 5)] = some t ∧ 1 ≤ t.depth ∧
      leafMS t = {'a'} ∧ build_code_table (some t) = [('a', [false])] :=
  ⟨by decide, single_symbol_tree 'a' 5 (by decide)⟩

theorem pathTo_leaf_inv {c c' : α} {f : Nat} {p : List Bool}
    (h : PathTo (.leaf c f) p c') : p = [] ∧ c' = c := by
  cases h; exact ⟨rfl, rfl⟩

theorem pathTo_ne_nil {t : HNode α} {p : List Bool} {c : α}
    (hl : t.isLeaf = false) (h : PathTo t p c) : p ≠ [] := by
  cases h <;> simp_all [HNode.isLeaf]

theorem decodeOne_of_path {t : HNode α} {p : List Bool} {c : α}
    (h : PathTo t p c) (hp : p ≠ []) :
    ∀ rest, decodeOne t (p ++ rest) = .ok (c, rest) := by
  induction h with
  | leaf c f => exact absurd rfl hp
  | left f r hsub ih =>
    intro rest
    rename_i l p c
    cases l with
    | leaf s fr =>
      obtain ⟨rfl, rfl⟩ := pathTo_leaf_inv hsub
      simp [decodeOne]
    | node fn ln rn =>
      have hne : p ≠ [] := pathTo_ne_nil (by simp [HNode.isLeaf]) hsub
      simpa [decodeOne] using ih hne rest
    | node1 fn ln =>
      have hne : p ≠ [] := pathTo_ne_nil (by simp [HNode.isLeaf]) hsub
      simpa [decodeOne] using ih hne rest
  | right f l hsub ih =>
    intro rest
    rename_i r p c
    cases r with
    | leaf s fr =>
      obtain ⟨rfl, rfl⟩ := pathTo_leaf_inv hsub
      simp [decodeOne]
    | node fn ln rn =>
      have hne : p ≠ [] := pathTo_ne_nil (by simp [HNode.isLeaf]) hsub
      simpa [decodeOne] using ih hne rest
    | node1 fn ln =>
      have hne : p ≠ [] := pathTo_ne_nil (by simp [HNode.isLeaf]) hsub
      simpa [decodeOne] using ih hne rest
  | single f hsub ih =>
    intro rest
    rename_i l p c
    cases l with
    | leaf s fr =>
      obtain ⟨rfl, rfl⟩ := pathTo_leaf_inv hsub
      simp [decodeOne]
    | node fn ln rn =>
      have hne : p ≠ [] := pathTo_ne_nil (by simp [HNode.isLeaf]) hsub
      simpa [decodeOne] using ih hne rest
    | node1 fn ln =>
      have hne : p ≠ [] := pathTo_ne_nil (by simp [HNode.isLeaf]) hsub
      simpa [decodeOne] using ih hne rest

theorem decodeOne_ok {t : HNode α} {bits rem : List Bool} {s : α}
    (h : decodeOne t bits = .ok (s, rem)) :
    ∃ p, p ≠ [] ∧ PathTo t p s ∧ bits = p ++ rem := by
  induction t generalizing bits with
  | leaf c f => simp [decodeOne] at h
  | node f l r ihl ihr =>
    match bits with
    | [] => simp [decodeOne] at h
    | false :: bs =>
      cases l with
      | leaf c fr =>
        simp [decodeOne] at h
        obtain ⟨rfl, rfl⟩ := h
        exact ⟨[false], by simp, .left f r (.leaf c fr), rfl⟩
      | node fn ln rn =>
        simp only [decodeOne] at h
        obtain ⟨p, hne, hpath, rfl⟩ := ihl h
        exact ⟨false :: p, by simp, .left f r hpath, rfl⟩
      | node1 fn ln =>
        simp only [decodeOne] at h
        obtain ⟨p, hne, hpath, rfl⟩ := ihl h
        exact ⟨false :: p, by simp, .left f r hpath, rfl⟩
    | true :: bs =>
      cases r with
      | leaf c fr =>
        simp [decodeOne] at h
        obtain ⟨rfl, rfl⟩ := h
        exact ⟨[true], by simp, .right f l (.leaf c fr), rfl⟩
      | node fn ln rn =>
        simp only [decodeOne] at h
        obtain ⟨p, hne, hpath, rfl⟩ := ihr h
        exact ⟨true :: p, by simp, .right f l hpath, rfl⟩
      | node1 fn ln =>
        simp only [decodeOne] at h
        obtain ⟨p, hne, hpath, rfl⟩ := ihr h
        exact ⟨true :: p, by simp, .right f l hpath, rfl⟩
  | node1 f l ihl =>
    match bits with
    | [] => simp [decodeOne] at h
    | true :: bs => simp [decodeOne] at h
    | false :: bs =>
      cases l with
      | leaf c fr =>
        simp [decodeOne] at h
        obtain ⟨rfl, rfl⟩ := h
        exact ⟨[false], by simp, .single f (.leaf c fr), rfl⟩
      | node fn ln rn =>
        simp only [decodeOne] at h
        obtain ⟨p, hne, hpath, rfl⟩ := ihl h
        exact ⟨false :: p, by simp, .single f hpath, rfl⟩
      | node1 fn ln =>
        simp only [decodeOne] at h
        obtain ⟨p, hne, hpath, rfl⟩ := ihl h
        exact ⟨false :: p, by simp, .single f hpath, rfl⟩

theorem decodeOne_length {t : HNode α} {bits rem : List Bool} {s : α}
    (h : decodeOne t bits = .ok (s, rem)) : rem.length < bits.length := by
  obtain ⟨p, hne, _, rfl⟩ := decodeOne_ok h
  have := List.length_pos.mpr hne
  simp [List.length_append]
  omega

theorem decodeOne_error {t : HNode α} {bits : List Bool} {e : CodecError}
    (h : decodeOne t bits = .error e) : e = .corruptBitstream := by
  induction t generalizing bits with
  | leaf c f => simp [decodeOne] at h; exact h.symm
  | node f l r ihl ihr =>
    match bits with
    | [] => simp [decodeOne] at h; exact h.symm
    | false :: bs =>
      cases l with
      | leaf c fr => simp [decodeOne] at h
      | node fn ln rn => simp only [decodeOne] at h; exact ihl h
      | node1 fn ln => simp only [decodeOne] at h; exact ihl h
    | true :: bs =>
      cases r with
      | leaf c fr => simp [decodeOne] at h
      | node fn ln rn => simp only [decodeOne] at h; exact ihr h
      | node1 fn ln => simp only [decodeOne] at h; exact ihr h
  | node1 f l ihl =>
    match bits with
    | [] => simp [decodeOne] at h; exact h.symm
    | true :: bs => simp [decodeOne] at h; exact h.symm
    | false :: bs =>
      cases l with
      | leaf c fr => simp [decodeOne] at h
      | node fn ln rn => simp only [decodeOne] at h; exact ihl h
      | node1 fn ln => simp only [decodeOne] at h; exact ihl h

end Huffman

namespace Huffman

variable {α : Type} [DecidableEq α]

theorem mem_codesAux_of_path {t : HNode α} {q : List Bool} {c : α}
    (h : PathTo t q c) : ∀ pfx, (c, pfx ++ q) ∈ codesAux t pfx := by
  induction h with
  | leaf c f => intro pfx; simp [codesAux]
  | left f r hsub ih =>
    intro pfx
    have := ih (pfx ++ [false])
    simp only [codesAux, List.mem_append]
    left
    simpa [List.append_assoc] using this
  | right f l hsub ih =>
    intro pfx
    have := ih (pfx ++ [true])
    simp only [codesAux, List.mem_append]
    right
    simpa [List.append_assoc] using this
  | single f hsub ih =>
    intro pfx
    have := ih (pfx ++ [false])
    simpa [codesAux, List.append_assoc] using this

theorem path_of_mem_codesAux {t : HNode α} {p : List Bool} {c : α} :
    ∀ pfx, (c, p) ∈ codesAux t pfx → ∃ q, p = pfx ++ q ∧ PathTo t q c := by
  induction t with
  | leaf c' f =>
    intro pfx h
    simp [codesAux] at h
    obtain ⟨rfl, rfl⟩ := h
    exact ⟨[], by simp, .leaf _ _⟩
  | node f l r ihl ihr =>
    intro pfx h
    simp only [codesAux, List.mem_append] at h
    rcases h with h | h
    · obtain ⟨q, rfl, hpath⟩ := ihl (pfx ++ [false]) h
      exact ⟨false :: q, by simp, .left f r hpath⟩
    · obtain ⟨q, rfl, hpath⟩ := ihr (pfx ++ [true]) h
      exact ⟨true :: q, by simp, .right f l hpath⟩
  | node1 f l ihl =>
    intro pfx h
    simp only [codesAux] at h
    obtain ⟨q, rfl, hpath⟩ := ihl (pfx ++ [false]) h
    exact ⟨false :: q, by simp, .single f hpath⟩

theorem path_unique_of_pref {t : HNode α} {p1 p2 : List Bool} {c1 c2 : α}
    (h1 : PathTo t p1 c1) (h2 : PathTo t p2 c2) (hpre : p1 <+: p2) :
    p1 = p2 ∧ c1 = c2 := by
  induction h1 generalizing p2 c2 with
  | leaf c f =>
    obtain ⟨rfl, rfl⟩ := pathTo_leaf_inv h2
    exact ⟨rfl, rfl⟩
  | left f r hsub ih =>
    cases h2 with
    | left _ _ hsub2 =>
      rw [List.cons_prefix_cons] at hpre
      obtain ⟨q2eq, c2eq⟩ := ih hsub2 hpre.2
      exact ⟨by rw [q2eq], c2eq⟩
    | right _ _ hsub2 =>
      rw [List.cons_prefix_cons] at hpre
      exact absurd hpre.1 (by simp)
  | right f l hsub ih =>
    cases h2 with
    | left _ _ hsub2 =>
      rw [List.cons_prefix_cons] at hpre
      exact absurd hpre.1 (by simp)
    | right _ _ hsub2 =>
      rw [List.cons_prefix_cons] at hpre
      obtain ⟨q2eq, c2eq⟩ := ih hsub2 hpre.2
      exact ⟨by rw [q2eq], c2eq⟩
  | single f hsub ih =>
    cases h2 with
    | single _ hsub2 =>
      rw [List.cons_prefix_cons] at hpre
      obtain ⟨q2eq, c2eq⟩ := ih hsub2 hpre.2
      exact ⟨by rw [q2eq], c2eq⟩

theorem exists_path_of_mem_leafMS {t : HNode α} {c : α}
    (h : c ∈ leafMS t) : ∃ p, PathTo t p c := by
  induction t with
  | leaf c' f =>
    simp [leafMS] at h
    exact ⟨[], h ▸ .leaf c' f⟩
  | node f l r ihl ihr =>
    simp only [leafMS, Multiset.mem_add] at h
    rcases h with h | h
    · obtain ⟨p, hp⟩ := ihl h
      exact ⟨false :: p, .left f r hp⟩
    · obtain ⟨p, hp⟩ := ihr h
      exact ⟨true :: p, .right f l hp⟩
  | node1 f l ihl =>
    simp only [leafMS] at h
    obtain ⟨p, hp⟩ := ihl h
    exact ⟨false :: p, .single f hp⟩

theorem findCode_mem {c : α} {p : List Bool} :
    ∀ {l : List (α × List Bool)}, findCode c l = some p → (c, p) ∈ l := by
  intro l
  induction l with
  | nil => intro h; simp [findCode] at h
  | cons e rest ih =>
    intro h
    obtain ⟨a, q⟩ := e
    simp only [findCode] at h
    split at h
    · rename_i heq
      obtain rfl := heq
      obtain rfl := Option.some.inj h
      simp
    · exact List.mem_cons_of_mem _ (ih h)

theorem exists_findCode {c : α} {p : List Bool} :
    ∀ {l : List (α × List Bool)}, (c, p) ∈ l → ∃ p', findCode c l = some p' := by
  intro l
  induction l with
  | nil => intro h; simp at h
  | cons e rest ih =>
    intro h
    obtain ⟨a, q⟩ := e
    by_cases hac : a = c
    · exact ⟨q, by simp [findCode, hac]⟩
    · simp only [List.mem_cons] at h
      rcases h with h | h
      · exact absurd (congrArg Prod.fst h).symm hac
      · obtain ⟨p', hp'⟩ := ih h
        exact ⟨p', by simp [findCode, hac, hp']⟩

theorem encode_ok {codes : List (α × List Bool)} :
    ∀ {txt : List α}, (∀ c ∈ txt, ∃ p, findCode c codes = some p) →
      ∃ bits, encode_text txt codes = .ok bits := by
  intro txt
  induction txt with
  | nil => intro _; exact ⟨[], rfl⟩
  | cons c rest ih =>
    intro h
    obtain ⟨p, hp⟩ := h c (by simp)
    obtain ⟨bits, hbits⟩ := ih (fun x hx => h x (by simp [hx]))
    exact ⟨p ++ bits, by simp [encode_text, hp, hbits, Except.map]⟩

theorem decode_encode_aux {t : HNode α} {codes : List (α × List Bool)} :
    ∀ (txt : List α) (bits : List Bool) (fuel : Nat),
      (∀ c ∈ txt, ∃ p, findCode c codes = some p ∧ PathTo t p c ∧ p ≠ []) →
      encode_text txt codes = .ok bits → bits.length ≤ fuel →
      decodeAllF t fuel bits = .ok txt := by
  intro txt
  induction txt with
  | nil =>
    intro bits fuel _ henc _
    obtain rfl : ([] : List Bool) = bits := Except.ok.inj henc
    cases fuel <;> rfl
  | cons c rest ih =>
    intro bits fuel hcodes henc hle
    obtain ⟨p, hp, hpath, hpne⟩ := hcodes c (by simp)
    simp only [encode_text, hp] at henc
    rcases hrest : encode_text rest codes with e | bits'
    · rw [hrest] at henc; simp [Except.map] at henc
    · rw [hrest] at henc
      simp only [Except.map] at henc
      obtain rfl := Except.ok.inj henc
      rcases p with _ | ⟨pb, ptl⟩
      · exact absurd rfl hpne
      · rcases fuel with _ | fuel
        · simp at hle
        · have hdec := decodeOne_of_path hpath hpne bits'
          simp only [List.cons_append] at hdec ⊢
          simp only [decodeAllF, hdec]
          have hlen : bits'.length ≤ fuel := by
            have := hle
            simp only [List.length_cons, List.length_append] at this ⊢
            omega
          rw [ih bits' fuel (fun x hx => hcodes x (by simp [hx])) hrest hlen]
          rfl

end Huffman

namespace Huffman

variable {α : Type} [DecidableEq α]

theorem popMin_eq_none {q : List (HNode α)} : popMin q = none ↔ q = [] := by
  cases q with
  | nil => simp [popMin]
  | cons t ts =>
    rcases hp : popMin ts with _ | ⟨m, rest⟩
    · simp [popMin, hp]
    · simp only [popMin, hp]
      split <;> simp

theorem popMin_perm {q : List (HNode α)} {m : HNode α} {rest : List (HNode α)}
    (h : popMin q = some (m, rest)) : q.Perm (m :: rest) := by
  induction q generalizing m rest with
  | nil => simp [popMin] at h
  | cons t ts ih =>
    rcases hp : popMin ts with _ | ⟨m', rest'⟩
    · have hts : ts = [] := popMin_eq_none.mp hp
      subst hts
      simp [popMin] at h
      obtain ⟨rfl, rfl⟩ := h
      exact List.Perm.refl _
    · simp only [popMin, hp] at h
      split at h
      · simp at h
        obtain ⟨rfl, rfl⟩ := h
        exact List.Perm.refl _
      · simp at h
        obtain ⟨rfl, rfl⟩ := h
        exact ((ih hp).cons t).trans (List.Perm.swap m' t rest')

theorem mergeLoopN_some :
    ∀ (n : Nat) (q : List (HNode α)), q ≠ [] → q.length ≤ n + 1 →
      ∃ t, mergeLoopN n q = some t := by
  intro n
  induction n with
  | zero =>
    intro q hne hlen
    rcases q with _ | ⟨a, q⟩
    · exact absurd rfl hne
    rcases q with _ | ⟨b, q⟩
    · exact ⟨a, rfl⟩
    · simp only [List.length_cons] at hlen; omega
  | succ n ih =>
    intro q hne hlen
    rcases q with _ | ⟨a, q⟩
    · exact absurd rfl hne
    rcases q with _ | ⟨b, q⟩
    · exact ⟨a, rfl⟩
    · obtain ⟨⟨a1, q1⟩, hp1⟩ : ∃ x, popMin (a :: b :: q) = some x := by
        rcases hx : popMin (a :: b :: q) with _ | x
        · rw [popMin_eq_none] at hx; simp at hx
        · exact ⟨x, rfl⟩
      have hlen1 : q1.length + 1 = (a :: b :: q).length := by
        have := (popMin_perm hp1).length_eq
        simpa using this.symm
      have hq1ne : q1 ≠ [] := by
        intro hq1
        subst hq1
        simp at hlen1
      obtain ⟨⟨b1, q2⟩, hp2⟩ : ∃ x, popMin q1 = some x := by
        rcases hx : popMin q1 with _ | x
        · rw [popMin_eq_none] at hx; exact absurd hx hq1ne
        · exact ⟨x, rfl⟩
      have hlen2 : q2.length + 1 = q1.length := by
        have := (popMin_perm hp2).length_eq
        simpa using this.symm
      obtain ⟨t, ht⟩ :=
        ih (q2 ++ [HNode.node (a1.rootFreq + b1.rootFreq) a1 b1]) (by simp)
          (by
            simp only [List.length_append, List.length_cons, List.length_nil] at *
            omega)
      exact ⟨t, by simp only [mergeLoopN, hp1, hp2]; exact ht⟩

theorem mergeLoopN_leafMS :
    ∀ (n : Nat) (q : List (HNode α)) (t : HNode α),
      mergeLoopN n q = some t → leafMS t = (q.map leafMS).sum := by
  intro n
  induction n with
  | zero =>
    intro q t h
    rcases q with _ | ⟨a, q⟩
    · simp [mergeLoopN] at h
    rcases q with _ | ⟨b, q⟩
    · simp [mergeLoopN] at h; subst h; simp
    · simp [mergeLoopN] at h
  | succ n ih =>
    intro q t h
    rcases q with _ | ⟨a, q⟩
    · simp [mergeLoopN] at h
    rcases q with _ | ⟨b, q⟩
    · simp [mergeLoopN] at h; subst h; simp
    · rcases hp1 : popMin (a :: b :: q) with _ | ⟨a1, q1⟩
      · simp only [mergeLoopN, hp1] at h; exact absurd h (by simp)
      rcases hp2 : popMin q1 with _ | ⟨b1, q2⟩
      · simp only [mergeLoopN, hp1, hp2] at h; exact absurd h (by simp)
      · simp only [mergeLoopN, hp1, hp2] at h
        have hrec := ih _ _ h
        have he1 : ((a :: b :: q).map leafMS).sum = leafMS a1 + (q1.map leafMS).sum := by
          have := ((popMin_perm hp1).map leafMS).sum_eq
          simpa using this
        have he2 : (q1.map leafMS).sum = leafMS b1 + (q2.map leafMS).sum := by
          have := ((popMin_perm hp2).map leafMS).sum_eq
          simpa using this
        rw [hrec, he1, he2]
        simp only [List.map_append, List.sum_append, List.map_cons, List.map_nil,
          List.sum_cons, List.sum_nil, leafMS]
        abel

theorem mergeLoopN_rootFreq :
    ∀ (n : Nat) (q : List (HNode α)) (t : HNode α),
      mergeLoopN n q = some t → t.rootFreq = (q.map HNode.rootFreq).sum := by
  intro n
  induction n with
  | zero =>
    intro q t h
    rcases q with _ | ⟨a, q⟩
    · simp [mergeLoopN] at h
    rcases q with _ | ⟨b, q⟩
    · simp [mergeLoopN] at h; subst h; simp
    · simp [mergeLoopN] at h
  | succ n ih =>
    intro q t h
    rcases q with _ | ⟨a, q⟩
    · simp [mergeLoopN] at h
    rcases q with _ | ⟨b, q⟩
    · simp [mergeLoopN] at h; subst h; simp
    · rcases hp1 : popMin (a :: b :: q) with _ | ⟨a1, q1⟩
      · simp only [mergeLoopN, hp1] at h; exact absurd h (by simp)
      rcases hp2 : popMin q1 with _ | ⟨b1, q2⟩
      · simp only [mergeLoopN, hp1, hp2] at h; exact absurd h (by simp)
      · simp only [mergeLoopN, hp1, hp2] at h
        have hrec := ih _ _ h
        have he1 : ((a :: b :: q).map HNode.rootFreq).sum
            = a1.rootFreq + (q1.map HNode.rootFreq).sum := by
          have := ((popMin_perm hp1).map HNode.rootFreq).sum_eq
          simpa using this
        have he2 : (q1.map HNode.rootFreq).sum
            = b1.rootFreq + (q2.map HNode.rootFreq).sum := by
          have := ((popMin_perm hp2).map HNode.rootFreq).sum_eq
          simpa using this
        rw [hrec, he1, he2]
        simp only [List.map_append, List.sum_append, List.map_cons, List.map_nil,
          List.sum_cons, List.sum_nil, HNode.rootFreq]
        omega

theorem nodeSums_rootFreq {t : HNode α} (h : nodeSums t) :
    t.rootFreq = leafFreqSum t := by
  induction t with
  | leaf c f => rfl
  | node f l r ihl ihr =>
    obtain ⟨hf, hl, hr⟩ := h
    simp [HNode.rootFreq, leafFreqSum, hf]
  | node1 f l ihl =>
    obtain ⟨hf, hl⟩ := h
    simp [HNode.rootFreq, leafFreqSum, hf]

theorem mergeLoopN_nodeSums :
    ∀ (n : Nat) (q : List (HNode α)) (t : HNode α),
      (∀ x ∈ q, nodeSums x) → mergeLoopN n q = some t → nodeSums t := by
  intro n
  induction n with
  | zero =>
    intro q t hall h
    rcases q with _ | ⟨a, q⟩
    · simp [mergeLoopN] at h
    rcases q with _ | ⟨b, q⟩
    · simp [mergeLoopN] at h; subst h; exact hall a (by simp)
    · simp [mergeLoopN] at h
  | succ n ih =>
    intro q t hall h
    rcases q with _ | ⟨a, q⟩
    · simp [mergeLoopN] at h
    rcases q with _ | ⟨b, q⟩
    · simp [mergeLoopN] at h; subst h; exact hall a (by simp)
    · rcases hp1 : popMin (a :: b :: q) with _ | ⟨a1, q1⟩
      · simp only [mergeLoopN, hp1] at h; exact absurd h (by simp)
      rcases hp2 : popMin q1 with _ | ⟨b1, q2⟩
      · simp only [mergeLoopN, hp1, hp2] at h; exact absurd h (by simp)
      · simp only [mergeLoopN, hp1, hp2] at h
        have hmem1 : ∀ x ∈ a1 :: q1, x ∈ a :: b :: q :=
          fun x hx => (popMin_perm hp1).mem_iff.mpr hx
        have ha1 : nodeSums a1 := hall _ (hmem1 a1 (by simp))
        have hq1 : ∀ x ∈ q1, nodeSums x :=
          fun x hx => hall _ (hmem1 x (by simp [hx]))
        have hmem2 : ∀ x ∈ b1 :: q2, x ∈ q1 :=
          fun x hx => (popMin_perm hp2).mem_iff.mpr hx
        have hb1 : nodeSums b1 := hq1 _ (hmem2 b1 (by simp))
        have hq2 : ∀ x ∈ q2, nodeSums x :=
          fun x hx => hq1 _ (hmem2 x (by simp [hx]))
        have hnew : nodeSums (HNode.node (a1.rootFreq + b1.rootFreq) a1 b1) := by
          refine ⟨?_, ha1, hb1⟩
          rw [nodeSums_rootFreq ha1, nodeSums_rootFreq hb1]
        refine ih _ _ ?_ h
        intro x hx
        rcases List.mem_append.mp hx with hx | hx
        · exact hq2 x hx
        · simp at hx; subst hx; exact hnew

theorem mergeLoopN_internal :
    ∀ (n : Nat) (q : List (HNode α)) (t : HNode α),
      2 ≤ q.length → mergeLoopN n q = some t → t.isLeaf = false := by
  intro n
  induction n with
  | zero =>
    intro q t hlen h
    rcases q with _ | ⟨a, q⟩
    · simp [mergeLoopN] at h
    rcases q with _ | ⟨b, q⟩
    · simp at hlen
    · simp [mergeLoopN] at h
  | succ n ih =>
    intro q t hlen h
    rcases q with _ | ⟨a, q⟩
    · simp [mergeLoopN] at h
    rcases q with _ | ⟨b, q⟩
    · simp at hlen
    · rcases hp1 : popMin (a :: b :: q) with _ | ⟨a1, q1⟩
      · simp only [mergeLoopN, hp1] at h; exact absurd h (by simp)
      rcases hp2 : popMin q1 with _ | ⟨b1, q2⟩
      · simp only [mergeLoopN, hp1, hp2] at h; exact absurd h (by simp)
      · simp only [mergeLoopN, hp1, hp2] at h
        rcases q2 with _ | ⟨x, q2⟩
        · simp only [List.nil_append] at h
          simp [mergeLoopN] at h
          subst h
          rfl
        · exact ih _ _ (by simp [List.length_append]) h

end Huffman

namespace Huffman

variable {α : Type} [DecidableEq α]

theorem map_fst_bumpCount (table : List (α × Nat)) (c : α) :
    (bumpCount table c).map Prod.fst = table.map Prod.fst ∨
    (bumpCount table c).map Prod.fst = table.map Prod.fst ++ [c] := by
  unfold bumpCount
  split
  · left
    rw [List.map_map]
    apply List.map_congr_left
    intro e he
    simp only [Function.comp_apply]
    split <;> rfl
  · right; simp

theorem mem_keys_bumpCount_self (table : List (α × Nat)) (c : α) :
    c ∈ (bumpCount table c).map Prod.fst := by
  unfold bumpCount
  split
  · rename_i hany
    simp only [List.any_eq_true, decide_eq_true_eq] at hany
    obtain ⟨e, he, heq⟩ := hany
    rw [List.map_map]
    refine List.mem_map.mpr ⟨e, he, ?_⟩
    simp only [Function.comp_apply]
    split <;> simp [heq]
  · simp

theorem mem_keys_bumpCount_mono {x : α} {table : List (α × Nat)} (c : α)
    (h : x ∈ table.map Prod.fst) : x ∈ (bumpCount table c).map Prod.fst := by
  rcases map_fst_bumpCount table c with heq | heq <;> rw [heq] <;> simp [h]

theorem mem_keys_foldl {x : α} :
    ∀ (l : List α) (init : List (α × Nat)),
      x ∈ init.map Prod.fst → x ∈ (l.foldl bumpCount init).map Prod.fst := by
  intro l
  induction l with
  | nil => intro init h; exact h
  | cons c rest ih => intro init h; exact ih _ (mem_keys_bumpCount_mono c h)

theorem mem_keys_freq {c : α} :
    ∀ (text : List α) (init : List (α × Nat)),
      c ∈ text → c ∈ (text.foldl bumpCount init).map Prod.fst := by
  intro text
  induction text with
  | nil => intro _ h; simp at h
  | cons a rest ih =>
    intro init h
    rcases List.mem_cons.mp h with rfl | h
    · exact mem_keys_foldl rest _ (mem_keys_bumpCount_self init c)
    · exact ih _ h

theorem freq_keys {text : List α} {c : α} (h : c ∈ text) :
    c ∈ (build_frequency_table text).map Prod.fst := mem_keys_freq text [] h

theorem freq_ne_nil {text : List α} (h : text ≠ []) :
    build_frequency_table text ≠ [] := by
  obtain ⟨c, rest, rfl⟩ := List.exists_cons_of_ne_nil h
  have : c ∈ (build_frequency_table (c :: rest)).map Prod.fst :=
    freq_keys (by simp)
  intro hnil
  rw [hnil] at this
  simp at this

theorem build_some {table : List (α × Nat)} (h : table ≠ []) :
    ∃ t, build_huffman_tree table = some t := by
  rcases table with _ | ⟨e, table⟩
  · exact absurd rfl h
  rcases table with _ | ⟨e2, table⟩
  · exact ⟨_, rfl⟩
  · obtain ⟨t, ht⟩ := mergeLoopN_some
      ((e :: e2 :: table).map (fun x => HNode.leaf x.1 x.2)).length
      ((e :: e2 :: table).map (fun x => HNode.leaf x.1 x.2)) (by simp) (by omega)
    refine ⟨t, ?_⟩
    simpa only [build_huffman_tree, List.map_cons, List.length_cons] using ht

theorem build_leafMS {table : List (α × Nat)} {t : HNode α}
    (h : build_huffman_tree table = some t) :
    leafMS t = (table.map (fun e => ({e.1} : Multiset α))).sum := by
  rcases table with _ | ⟨e, table⟩
  · simp [build_huffman_tree] at h
  rcases table with _ | ⟨e2, table⟩
  · simp [build_huffman_tree] at h
    subst h
    simp [leafMS]
  · simp only [build_huffman_tree, List.map_cons] at h
    have := mergeLoopN_leafMS _ _ _ h
    rw [this]
    simp [List.map_map, Function.comp_def, leafMS]

theorem build_rootFreq {table : List (α × Nat)} {t : HNode α}
    (h : build_huffman_tree table = some t) :
    t.rootFreq = (table.map (fun e => e.2)).sum := by
  rcases table with _ | ⟨e, table⟩
  · simp [build_huffman_tree] at h
  rcases table with _ | ⟨e2, table⟩
  · simp [build_huffman_tree] at h
    subst h
    simp [HNode.rootFreq]
  · simp only [build_huffman_tree, List.map_cons] at h
    have := mergeLoopN_rootFreq _ _ _ h
    rw [this]
    simp [List.map_map, Function.comp_def, HNode.rootFreq]

theorem build_nodeSums {table : List (α × Nat)} {t : HNode α}
    (h : build_huffman_tree table = some t) : nodeSums t := by
  rcases table with _ | ⟨e, table⟩
  · simp [build_huffman_tree] at h
  rcases table with _ | ⟨e2, table⟩
  · simp [build_huffman_tree] at h
    subst h
    exact ⟨rfl, trivial⟩
  · simp only [build_huffman_tree, List.map_cons] at h
    refine mergeLoopN_nodeSums _ _ _ ?_ h
    intro x hx
    rcases List.mem_cons.mp hx with rfl | hx
    · trivial
    rcases List.mem_cons.mp hx with rfl | hx
    · trivial
    · obtain ⟨e', _, rfl⟩ := List.mem_map.mp hx
      trivial

theorem build_internal {table : List (α × Nat)} (hne : table ≠ []) {t : HNode α}
    (h : build_huffman_tree table = some t) : t.isLeaf = false := by
  rcases table with _ | ⟨e, table⟩
  · exact absurd rfl hne
  rcases table with _ | ⟨e2, table⟩
  · simp [build_huffman_tree] at h
    subst h
    rfl
  · simp only [build_huffman_tree, List.map_cons] at h
    exact mergeLoopN_internal _ _ _ (by simp) h

theorem mem_sum_singletons {c : α} :
    ∀ {l : List (α × Nat)},
      c ∈ (l.map (fun e => ({e.1} : Multiset α))).sum ↔ c ∈ l.map Prod.fst := by
  intro l
  induction l with
  | nil => simp
  | cons e rest ih => simp [ih]

/-- C7: in every tree built from a non-empty frequency table each internal
node's frequency equals the sum of the frequencies of the leaves beneath
it, and the root's frequency equals the total symbol count. -/
theorem tree_frequency_sums (table : List (α × Nat)) (hne : table ≠ [])
    (t : HNode α) (h : build_huffman_tree table = some t) :
    nodeSums t ∧ t.rootFreq = (table.map (fun e => e.2)).sum :=
  ⟨build_nodeSums h, build_rootFreq h⟩

/-- Witness for C7 at the concrete table `{'a': 1, 'b': 2}`. -/
theorem tree_frequency_sums_witness :
    nodeSums (HNode.node 3 (HNode.leaf 'a' 1) (HNode.leaf 'b' 2)) ∧
    (HNode.node 3 (HNode.leaf 'a' 1) (HNode.leaf 'b' 2)).rootFreq
      = ([(('a' : Char), 1), ('b', 2)].map (fun e => e.2)).sum :=
  tree_frequency_sums [('a', 1), ('b', 2)] (by decide) _ rfl

/-- C1: for every symbol sequence (any type with decidable equality, hence
any set of Unicode code points, including the empty sequence), encoding
with the code table derived from the tree built from the sequence's own
frequency table and then decoding against that same tree returns exactly
the original sequence. -/
theorem encode_decode_roundtrip (α : Type) [DecidableEq α] (text : List α) :
    (encode_text text
        (build_code_table (build_huffman_tree (build_frequency_table text)))).bind
      (fun bits => decode_text bits (build_huffman_tree (build_frequency_table text)))
    = .ok text := by
  by_cases hne : text = []
  · subst hne; rfl
  · obtain ⟨t, ht⟩ := build_some (freq_ne_nil hne)
    rw [ht]
    have hcodes : ∀ c ∈ text,
        ∃ p, findCode c (build_code_table (some t)) = some p ∧ PathTo t p c ∧ p ≠ [] := by
      intro c hc
      have hkey : c ∈ (build_frequency_table text).map Prod.fst := freq_keys hc
      have hleaf : c ∈ leafMS t := by
        rw [build_leafMS ht]
        exact mem_sum_singletons.mpr hkey
      obtain ⟨p0, hp0⟩ := exists_path_of_mem_leafMS hleaf
      have hmem : (c, p0) ∈ codesAux t [] := by
        simpa using mem_codesAux_of_path hp0 []
      obtain ⟨p, hp⟩ :=
        exists_findCode (show (c, p0) ∈ build_code_table (some t) from hmem)
      have hmem2 : (c, p) ∈ codesAux t [] := findCode_mem hp
      obtain ⟨q, hq, hpath⟩ := path_of_mem_codesAux [] hmem2
      simp only [List.nil_append] at hq
      subst hq
      exact ⟨p, hp, hpath, pathTo_ne_nil (build_internal (freq_ne_nil hne) ht) hpath⟩
    obtain ⟨bits, hbits⟩ := encode_ok (fun c hc => (hcodes c hc).imp (fun p hp => hp.1))
    rw [hbits]
    show decode_text bits (some t) = .ok text
    exact decode_encode_aux text bits bits.length hcodes hbits le_rfl

/-- C6: for every non-empty frequency table, the code table derived from
the Huffman tree built from it is prefix-free — no symbol's code is a
prefix of a different symbol's code. -/
theorem code_table_prefix_free (table : List (α × Nat)) (hne : table ≠ [])
    (c1 c2 : α) (p1 p2 : List Bool)
    (h1 : (c1, p1) ∈ build_code_table (build_huffman_tree table))
    (h2 : (c2, p2) ∈ build_code_table (build_huffman_tree table))
    (hcc : c1 ≠ c2) : ¬ p1 <+: p2 := by
  intro hpre
  rcases hb : build_huffman_tree table with _ | t
  · rw [hb] at h1; simp [build_code_table] at h1
  · rw [hb] at h1 h2
    simp only [build_code_table] at h1 h2
    obtain ⟨q1, hq1, hpath1⟩ := path_of_mem_codesAux [] h1
    obtain ⟨q2, hq2, hpath2⟩ := path_of_mem_codesAux [] h2
    simp only [List.nil_append] at hq1 hq2
    subst hq1
    subst hq2
    exact hcc (path_unique_of_pref hpath1 hpath2 hpre).2

/-- Witness for C6 at the concrete table `{'a': 1, 'b': 2}`, whose code
table is `[('a', "0"), ('b', "1")]`. -/
theorem code_table_prefix_free_witness : ¬ [false] <+: [true] :=
  code_table_prefix_free [(('a' : Char), 1), ('b', 2)] (by decide) 'a' 'b'
    [false] [true] (by decide) (by decide) (by decide)

end Huffman

namespace Huffman

variable {α : Type} [DecidableEq α]

theorem decodeAllF_congr {t : HNode α} :
    ∀ (f1 f2 : Nat) (bits : List Bool), bits.length ≤ f1 → bits.length ≤ f2 →
      decodeAllF t f1 bits = decodeAllF t f2 bits := by
  intro f1
  induction f1 with
  | zero =>
    intro f2 bits h1 _
    have : bits = [] := List.length_eq_zero.mp (by omega)
    subst this
    cases f2 <;> rfl
  | succ f1 ih =>
    intro f2 bits h1 h2
    rcases bits with _ | ⟨b, bs⟩
    · cases f2 <;> rfl
    · rcases f2 with _ | f2
      · simp at h2
      · rcases hd : decodeOne t (b :: bs) with e | ⟨s, rem⟩
        · simp [decodeAllF, hd]
        · have hlt := decodeOne_length hd
          simp only [decodeAllF, hd]
          simp only [List.length_cons] at h1 h2 hlt
          rw [ih f2 rem (by omega) (by omega)]

theorem decodeOne_append {t : HNode α} {b1 rem : List Bool} {s : α}
    (h : decodeOne t b1 = .ok (s, rem)) (b2 : List Bool) :
    decodeOne t (b1 ++ b2) = .ok (s, rem ++ b2) := by
  obtain ⟨p, hne, hpath, rfl⟩ := decodeOne_ok h
  rw [List.append_assoc]
  exact decodeOne_of_path hpath hne (rem ++ b2)

theorem decodeAll_append {t : HNode α} :
    ∀ (fuel : Nat) (b1 b2 : List Bool) (syms : List α), b1.length ≤ fuel →
      decodeAllF t fuel b1 = .ok syms →
      decodeAll t (b1 ++ b2) = (decodeAll t b2).map (fun xs => syms ++ xs) := by
  intro fuel
  induction fuel with
  | zero =>
    intro b1 b2 syms hle h
    have : b1 = [] := List.length_eq_zero.mp (by omega)
    subst this
    obtain rfl : ([] : List α) = syms := by simpa [decodeAllF] using h
    simp only [List.nil_append]
    rcases hd : decodeAll t b2 with e | xs <;> simp [Except.map]
  | succ fuel ih =>
    intro b1 b2 syms hle h
    rcases b1 with _ | ⟨b, bs⟩
    · obtain rfl : ([] : List α) = syms := by simpa [decodeAllF] using h
      simp only [List.nil_append]
      rcases hd : decodeAll t b2 with e | xs <;> simp [Except.map]
    · simp only [decodeAllF] at h
      rcases hd : decodeOne t (b :: bs) with e | ⟨s, rem⟩
      · rw [hd] at h; simp at h
      · rw [hd] at h
        simp only [Except.map] at h
        rcases hrec : decodeAllF t fuel rem with e | syms'
        · rw [hrec] at h; simp at h
        · rw [hrec] at h
          obtain rfl := Except.ok.inj h
          have hda : decodeOne t (b :: (bs ++ b2)) = .ok (s, rem ++ b2) := by
            simpa using decodeOne_append hd b2
          have hlen : rem.length < (b :: bs).length := decodeOne_length hd
          show decodeAllF t ((b :: bs) ++ b2).length ((b :: bs) ++ b2) = _
          have hfeq : ((b :: bs) ++ b2).length = (bs ++ b2).length + 1 := by simp
          rw [hfeq, List.cons_append]
          have hstep : decodeAllF t ((bs ++ b2).length + 1) (b :: (bs ++ b2))
              = (decodeAllF t (bs ++ b2).length (rem ++ b2)).map
                  (fun xs => s :: xs) := by
            conv_lhs => rw [decodeAllF]
            rw [hda]
          rw [hstep]
          have hc : decodeAllF t (bs ++ b2).length (rem ++ b2)
              = decodeAll t (rem ++ b2) := by
            apply decodeAllF_congr
            · simp only [List.length_append, List.length_cons] at hlen ⊢
              omega
            · exact le_rfl
          rw [hc, ih rem b2 syms'
            (by simp only [List.length_cons] at hlen hle; omega) hrec]
          rcases decodeAll t b2 with e | xs <;> simp [Except.map]

theorem decodeAll_error_of_no_code {t : HNode α} {b2 : List Bool}
    (hne : b2 ≠ []) (hnc : ∀ e ∈ build_code_table (some t), ¬ e.2 <+: b2) :
    decodeAll t b2 = .error .corruptBitstream := by
  rcases b2 with _ | ⟨b, bs⟩
  · exact absurd rfl hne
  · show decodeAllF t (b :: bs).length (b :: bs) = _
    rw [show (b :: bs).length = bs.length + 1 from rfl]
    rcases hd : decodeOne t (b :: bs) with e | ⟨s, rem⟩
    · obtain rfl := decodeOne_error hd
      simp [decodeAllF, hd]
    · exfalso
      obtain ⟨p, hpne, hpath, heq⟩ := decodeOne_ok hd
      have hmem : (s, p) ∈ codesAux t [] := by
        simpa using mem_codesAux_of_path hpath []
      exact hnc (s, p) hmem ⟨rem, heq.symm⟩

/-- C9: if a bit-string decodes cleanly and is extended by a non-empty
suffix that does not begin with any symbol's code — that is, the trailing
bits do not form a root-to-leaf path of the tree — then decoding the
extended bit-string reports `CorruptBitstreamError` instead of silently
ignoring the trailing bits. -/
theorem decode_reports_corrupt_suffix (t : HNode α) (b1 b2 : List Bool)
    (syms : List α)
    (h1 : decode_text b1 (some t) = .ok syms) (h2 : b2 ≠ [])
    (h3 : ∀ e ∈ build_code_table (some t), ¬ e.2 <+: b2) :
    decode_text (b1 ++ b2) (some t) = .error .corruptBitstream := by
  have hall : decodeAll t b1 = .ok syms := h1
  have happ := decodeAll_append b1.length b1 b2 syms le_rfl hall
  show decodeAll t (b1 ++ b2) = _
  rw [happ, decodeAll_error_of_no_code h2 h3]
  rfl

/-- Witness for C9: after decoding the empty prefix against the tree for
`{'a': 1, 'b': 1, 'c': 1}`, the single trailing bit '0' reaches only an
internal node, so decoding fails. -/
theorem decode_reports_corrupt_suffix_witness :
    decode_text ([] ++ [false])
      (some (HNode.node 3 (HNode.node 2 (HNode.leaf 'a' 1) (HNode.leaf 'b' 1))
        (HNode.leaf 'c' 1)))
      = .error .corruptBitstream :=
  decode_reports_corrupt_suffix _ [] [false] [] rfl (by decide) (by decide)

end Huffman

namespace Huffman

variable {α : Type} [DecidableEq α]

theorem popMin_isPop :
    ∀ {q : List (HNode α)} {m : HNode α} {rest : List (HNode α)},
      popMin q = some (m, rest) → IsPop q m rest := by
  intro q
  induction q with
  | nil => intro m rest h; simp [popMin] at h
  | cons t ts ih =>
    intro m rest h
    rcases hp : popMin ts with _ | ⟨m', rest'⟩
    · have hts : ts = [] := popMin_eq_none.mp hp
      subst hts
      simp [popMin] at h
      obtain ⟨rfl, rfl⟩ := h
      exact ⟨[], [], rfl, rfl, by simp, by simp⟩
    · simp only [popMin, hp] at h
      obtain ⟨l1, l2, hq, hr, hmin, hbef⟩ := ih hp
      split at h
      · rename_i hle
        simp at h
        obtain ⟨rfl, rfl⟩ := h
        refine ⟨[], ts, rfl, rfl, ?_, by simp⟩
        intro x hx
        rcases List.mem_cons.mp hx with rfl | hx
        · exact le_refl _
        · exact le_trans hle (hmin x hx)
      · rename_i hgt
        push_neg at hgt
        simp at h
        obtain ⟨rfl, rfl⟩ := h
        refine ⟨t :: l1, l2, by simp [hq], by simp [hr], ?_, ?_⟩
        · intro x hx
          rcases List.mem_cons.mp hx with rfl | hx
          · exact le_of_lt hgt
          · exact hmin x hx
        · intro x hx
          rcases List.mem_cons.mp hx with rfl | hx
          · exact hgt
          · exact hbef x hx

theorem isPop_unique {q : List (HNode α)} {m m' : HNode α}
    {r r' : List (HNode α)}
    (h1 : IsPop q m r) (h2 : IsPop q m' r') : m = m' ∧ r = r' := by
  obtain ⟨l1, l2, hq1, hr1, hmin1, hbef1⟩ := h1
  obtain ⟨l1', l2', hq2, hr2, hmin2, hbef2⟩ := h2
  have heq : l1 ++ m :: l2 = l1' ++ m' :: l2' := by rw [← hq1, hq2]
  rcases List.append_eq_append_iff.mp heq with ⟨a, ha1, ha2⟩ | ⟨c, hc1, hc2⟩
  · rcases a with _ | ⟨x, a'⟩
    · simp at ha1 ha2
      obtain ⟨rfl, rfl⟩ := ha2
      subst ha1
      exact ⟨rfl, by rw [hr1, hr2]⟩
    · simp only [List.cons_append, List.cons.injEq] at ha2
      obtain ⟨rfl, hl2⟩ := ha2
      have hmem : m ∈ l1' := by
        rw [ha1]
        simp
      have hlt := hbef2 m hmem
      have hle := hmin1 m' (by rw [hq2]; simp)
      omega
  · rcases c with _ | ⟨x, c'⟩
    · simp at hc1 hc2
      obtain ⟨rfl, rfl⟩ := hc2
      subst hc1
      exact ⟨rfl, by rw [hr1, hr2]⟩
    · simp only [List.cons_append, List.cons.injEq] at hc2
      obtain ⟨rfl, hl2⟩ := hc2
      have hmem : m' ∈ l1 := by
        rw [hc1]
        simp
      have hlt := hbef1 m' hmem
      have hle := hmin2 m (by rw [hq1]; simp)
      omega

theorem mergeStep_det {q o1 o2 : List (HNode α)}
    (h1 : MergeStep q o1) (h2 : MergeStep q o2) : o1 = o2 := by
  rcases h1 with ⟨hp1a, hp1b⟩
  rcases h2 with ⟨hp2a, hp2b⟩
  obtain ⟨rfl, rfl⟩ := isPop_unique hp1a hp2a
  obtain ⟨rfl, rfl⟩ := isPop_unique hp1b hp2b
  rfl

theorem isPop_nil {m : HNode α} {r : List (HNode α)} : ¬ IsPop [] m r := by
  rintro ⟨l1, l2, hq, -, -, -⟩
  exact absurd hq.symm (by simp)

theorem mergeStep_single {t : HNode α} {o : List (HNode α)} :
    ¬ MergeStep [t] o := by
  rintro ⟨hpa, hpb⟩
  rename_i q1 _ a _
  obtain ⟨l1, l2, hq, hr, -, -⟩ := hpa
  have hlen := congrArg List.length hq
  simp only [List.length_cons, List.length_append, List.length_nil] at hlen
  have hl1 : l1 = [] := List.length_eq_zero.mp (by omega)
  have hl2 : l2 = [] := List.length_eq_zero.mp (by omega)
  subst hl1; subst hl2
  simp at hr
  subst hr
  exact isPop_nil hpb

theorem buildsTo_det {q : List (HNode α)} {t1 t2 : HNode α}
    (h1 : BuildsTo q t1) (h2 : BuildsTo q t2) : t1 = t2 := by
  induction h1 with
  | done t =>
    cases h2 with
    | done => rfl
    | step hs _ => exact absurd hs mergeStep_single
  | step hs hrest ih =>
    cases h2 with
    | done => exact absurd hs mergeStep_single
    | step hs' hrest' =>
      obtain rfl := mergeStep_det hs hs'
      exact ih hrest'

theorem mergeLoopN_buildsTo :
    ∀ (n : Nat) (q : List (HNode α)) (t : HNode α),
      mergeLoopN n q = some t → BuildsTo q t := by
  intro n
  induction n with
  | zero =>
    intro q t h
    rcases q with _ | ⟨a, q⟩
    · simp [mergeLoopN] at h
    rcases q with _ | ⟨b, q⟩
    · simp [mergeLoopN] at h; subst h; exact .done _
    · simp [mergeLoopN] at h
  | succ n ih =>
    intro q t h
    rcases q with _ | ⟨a, q⟩
    · simp [mergeLoopN] at h
    rcases q with _ | ⟨b, q⟩
    · simp [mergeLoopN] at h; subst h; exact .done _
    · rcases hp1 : popMin (a :: b :: q) with _ | ⟨a1, q1⟩
      · simp only [mergeLoopN, hp1] at h; exact absurd h (by simp)
      rcases hp2 : popMin q1 with _ | ⟨b1, q2⟩
      · simp only [mergeLoopN, hp1, hp2] at h; exact absurd h (by simp)
      · simp only [mergeLoopN, hp1, hp2] at h
        exact .step (.mk (popMin_isPop hp1) (popMin_isPop hp2)) (ih _ _ h)

theorem build_treeFor {table : List (α × Nat)} {t : HNode α}
    (h : build_huffman_tree table = some t) : TreeFor table t := by
  rcases table with _ | ⟨e, table⟩
  · simp [build_huffman_tree] at h
  rcases table with _ | ⟨e2, table⟩
  · simp [build_huffman_tree] at h
    simp [TreeFor]
    exact h.symm
  · simp only [build_huffman_tree, List.map_cons] at h
    simp only [TreeFor, List.map_cons]
    exact mergeLoopN_buildsTo _ _ _ h

theorem treeFor_det {table : List (α × Nat)} {t1 t2 : HNode α}
    (h1 : TreeFor table t1) (h2 : TreeFor table t2) : t1 = t2 := by
  rcases table with _ | ⟨e, table⟩
  · simp [TreeFor] at h1
  rcases table with _ | ⟨e2, table⟩
  · simp only [TreeFor, List.map_cons, List.map_nil] at h1 h2
    rw [h1, h2]
  · simp only [TreeFor, List.map_cons] at h1 h2
    exact buildsTo_det h1 h2

/-- C8: tree construction is deterministic.  `TreeFor` is the spec's
merge-loop algorithm (with its tie-break policy) read as a relation, so any
run of it — in particular any invocation of `build_huffman_tree`, on
compress or on decompress — produces the same structurally identical tree
from the same frequency table, and therefore the same code table; no
hash-iteration order enters the relation. -/
theorem huffman_build_deterministic (table : List (α × Nat))
    (t1 t2 : HNode α)
    (h1 : build_huffman_tree table = some t1) (h2 : TreeFor table t2) :
    t1 = t2 ∧ build_code_table (some t1) = build_code_table (some t2) := by
  have heq := treeFor_det (build_treeFor h1) h2
  exact ⟨heq, by rw [heq]⟩

/-- Witness for C8 at the concrete table `{'a': 1, 'b': 2}`. -/
theorem huffman_build_deterministic_witness :
    HNode.node 3 (HNode.leaf 'a' 1) (HNode.leaf 'b' 2)
      = HNode.node 3 (HNode.leaf 'a' 1) (HNode.leaf 'b' 2) ∧
    build_code_table (some (HNode.node 3 (HNode.leaf 'a' 1) (HNode.leaf 'b' 2)))
      = build_code_table (some (HNode.node 3 (HNode.leaf 'a' 1) (HNode.leaf 'b' 2))) :=
  huffman_build_deterministic [(('a' : Char), 1), ('b', 2)] _ _ rfl
    (build_treeFor rfl)

end Huffman

namespace PyJson

theorem hexVal_hexDigitChar_fin :
    ∀ d : Fin 16, hexVal (hexDigitChar d.val) = some d.val := by decide

theorem hexVal_hexDigitChar (d : Nat) (h : d < 16) :
    hexVal (hexDigitChar d) = some d := hexVal_hexDigitChar_fin ⟨d, h⟩

theorem readStrF_escapeChar (c : Nat) (f : Nat) (tail : List Nat) :
    readStrF (f + 1) (escapeChar c ++ tail)
      = (readStrF f tail).map (fun sr => (c :: sr.1, sr.2)) := by
  unfold escapeChar
  rcases hesc : escOut c with _ | e
  · have h34 : c ≠ 34 := by intro h; subst h; simp [escOut] at hesc
    have h92 : c ≠ 92 := by intro h; subst h; simp [escOut] at hesc
    by_cases hc : c < 32
    · simp only [if_pos hc]
      have e1 := hexVal_hexDigitChar (c / 4096 % 16) (Nat.mod_lt _ (by omega))
      have e2 := hexVal_hexDigitChar (c / 256 % 16) (Nat.mod_lt _ (by omega))
      have e3 := hexVal_hexDigitChar (c / 16 % 16) (Nat.mod_lt _ (by omega))
      have e4 := hexVal_hexDigitChar (c % 16) (Nat.mod_lt _ (by omega))
      have hv : c / 4096 % 16 * 4096 + c / 256 % 16 * 256 + c / 16 % 16 * 16 + c % 16
          = c := by omega
      simp [readStrF, escMap, e1, e2, e3, e4, hv]
    · simp only [if_neg hc]
      simp only [List.cons_append, List.nil_append, readStrF]
      rw [if_neg h34, if_neg h92, if_neg hc]
  · unfold escOut at hesc
    split_ifs at hesc with h1 h2 h3 h4 h5 h6 h7 <;>
      first
        | (subst h1; obtain rfl := Option.some.inj hesc; simp [readStrF, escMap])
        | (subst h2; obtain rfl := Option.some.inj hesc; simp [readStrF, escMap])
        | (subst h3; obtain rfl := Option.some.inj hesc; simp [readStrF, escMap])
        | (subst h4; obtain rfl := Option.some.inj hesc; simp [readStrF, escMap])
        | (subst h5; obtain rfl := Option.some.inj hesc; simp [readStrF, escMap])
        | (subst h6; obtain rfl := Option.some.inj hesc; simp [readStrF, escMap])
        | (subst h7; obtain rfl := Option.some.inj hesc; simp [readStrF, escMap])
        | exact absurd hesc (by simp)

theorem escape_string_length (s : List Nat) :
    s.length ≤ (escape_string s).length := by
  induction s with
  | nil => simp [escape_string]
  | cons c s' ih =>
    have hch : 1 ≤ (escapeChar c).length := by
      unfold escapeChar
      rcases escOut c with _ | e
      · dsimp only
        split <;> simp
      · simp
    simp only [escape_string, List.map_cons, List.flatten_cons, List.length_append,
      List.length_cons] at ih ⊢
    omega

theorem readStrF_escape (s : List Nat) :
    ∀ (n : Nat) (rest : List Nat), s.length + 1 ≤ n →
      readStrF n (escape_string s ++ (34 :: rest)) = .ok (s, rest) := by
  induction s with
  | nil =>
    intro n rest hn
    rcases n with _ | n
    · omega
    · have heq : escape_string [] ++ 34 :: rest = 34 :: rest := by rfl
      rw [heq]
      simp [readStrF]
  | cons c s' ih =>
    intro n rest hn
    rcases n with _ | n
    · omega
    · have hsplit : escape_string (c :: s') ++ 34 :: rest
          = escapeChar c ++ (escape_string s' ++ 34 :: rest) := by
        simp [escape_string]
      rw [hsplit, readStrF_escapeChar,
        ih n rest (by simp only [List.length_cons] at hn; omega)]
      rfl

theorem readStr_escape (s : List Nat) (rest : List Nat) :
    readStr (escape_string s ++ (34 :: rest)) = .ok (s, rest) := by
  unfold readStr
  apply readStrF_escape
  have := escape_string_length s
  simp only [List.length_append, List.length_cons]
  omega

theorem tokenize_quoted (s : List Nat) :
    tokenize (34 :: escape_string s ++ [34]) = .ok [.str s, .eof] := by
  unfold tokenize
  have hlen : (34 :: escape_string s ++ [34]).length
      = (escape_string s).length + 2 := by simp
  rw [hlen]
  have hnext : nextToken (34 :: escape_string s ++ [34])
      = .ok (.str s, []) := by
    have hws : dropWs (34 :: escape_string s ++ [34])
        = 34 :: (escape_string s ++ [34]) := by
      simp [dropWs]
    unfold nextToken
    rw [List.cons_append] at hws ⊢
    rw [hws]
    have : escape_string s ++ [34] = escape_string s ++ (34 :: []) := rfl
    simp only [this, readStr_escape s []]
    rfl
  rw [tokenizeF, hnext]
  rfl

/-- C10: for every Python string `s` (a sequence of Unicode code points),
parsing the JSON text formed by wrapping `escape_string s` in double
quotes succeeds and returns exactly `s`: `escape_string` and the lexer's
string reader are mutually inverse through `parse_json`. -/
theorem escape_parse_roundtrip (s : List Nat) (h : ∀ c ∈ s, c < 1114112) :
    parse_json (34 :: escape_string s ++ [34]) = .ok (.str s) := by
  unfold parse_json
  rw [tokenize_quoted]
  rfl

/-- Witness for C10 on the string `h"\<newline><0x1f>中` exercising a raw
character, both kinds of escapes, and a multi-byte code point. -/
theorem escape_parse_roundtrip_witness :
    parse_json (34 :: escape_string [104, 34, 92, 10, 31, 20013] ++ [34])
      = .ok (.str [104, 34, 92, 10, 31, 20013]) :=
  escape_parse_roundtrip [104, 34, 92, 10, 31, 20013] (by decide)

end PyJson
